import Mathlib

/-!
Verification of the task-store core of the Task-Manager-rust repository
(`src/main.rs`). The store (`TaskManager`) keeps a `HashMap<u32, Task>`
together with a `next_id` counter; here the map is modelled as an
association list of `(key, Task)` pairs (key semantics: lookup finds the
unique entry with the key, insert replaces-or-appends, remove drops every
entry with the key), and `u32` ids as `Nat` (the counter only ever grows by
1 per successful add, far from the `u32` range for any feasible run; Rust's
debug build would abort on overflow rather than hand out a wrapped id).
String case-folding (`str::to_lowercase`) is modelled by mapping
`Char.toLower` over the character sequence, and `str::contains` by an
executable substring search on character lists.
-/

set_option autoImplicit false

namespace TaskManagerRust

/-- Rust `enum TaskError` from `src/main.rs`. -/
inductive TaskError where
  | TaskNotFound
  | InvalidInput
  | DuplicateTask
  deriving DecidableEq, Repr

/-- Rust `enum Priority`. -/
inductive Priority where
  | Low
  | Medium
  | High
  | Critical
  deriving DecidableEq, Repr

/-- Rust `enum TaskStatus`. -/
inductive TaskStatus where
  | Pending
  | InProgress
  | Completed
  deriving DecidableEq, Repr

/-- Rust `struct Task`. -/
structure Task where
  id : Nat
  title : String
  description : String
  priority : Priority
  status : TaskStatus
  tags : List String
  deriving DecidableEq, Repr

/-- Rust `Task::new`: fresh task, status `Pending`, no tags. -/
def Task.new (id : Nat) (title description : String) (priority : Priority) : Task :=
  { id := id, title := title, description := description, priority := priority,
    status := TaskStatus.Pending, tags := [] }

/-- Rust `Task::add_tag`: push the tag only when not already present
(case-sensitive `Vec::contains`). -/
def Task.add_tag (t : Task) (tag : String) : Task :=
  if t.tags.contains tag then t else { t with tags := t.tags ++ [tag] }

/-- Rust `Task::update_status`. -/
def Task.update_status (t : Task) (status : TaskStatus) : Task :=
  { t with status := status }

/-- Executable model of Rust `str::is_prefix`-style matching used by
`contains`: `needleIsAt needle hay` holds when `needle` occurs at the very
start of `hay`. -/
def needleIsAt : List Char → List Char → Bool
  | [], _ => true
  | _ :: _, [] => false
  | a :: as, b :: bs => a == b && needleIsAt as bs

/-- Executable model of Rust `str::contains`: substring occurrence of
`needle` anywhere in `hay`. -/
def hasSub (hay needle : List Char) : Bool :=
  match hay with
  | [] => needle.isEmpty
  | _ :: rest => needleIsAt needle hay || hasSub rest needle

/-- Rust `str::to_lowercase`, modelled per character on the character
sequence. -/
def lowerChars (s : String) : List Char :=
  s.toList.map Char.toLower

/-- Rust `Task::matches_filter`: case-insensitive substring match of the
filter against title, description, or any tag
(`self.title.to_lowercase().contains(&filter.to_lowercase()) || ...`). -/
def Task.matches_filter (t : Task) (filter : String) : Bool :=
  hasSub (lowerChars t.title) (lowerChars filter) ||
  hasSub (lowerChars t.description) (lowerChars filter) ||
  t.tags.any (fun tag => hasSub (lowerChars tag) (lowerChars filter))

/-- Association-list model of `HashMap::get`. -/
def lookupTask : List (Nat × Task) → Nat → Option Task
  | [], _ => none
  | e :: l, k => if e.1 = k then some e.2 else lookupTask l k

/-- Association-list model of `HashMap::contains_key`. -/
def containsKey (l : List (Nat × Task)) (k : Nat) : Bool :=
  l.any (fun e => e.1 == k)

/-- Association-list model of `HashMap::insert`: replace the entry at the
key when present, otherwise append. -/
def insertTask (l : List (Nat × Task)) (k : Nat) (v : Task) : List (Nat × Task) :=
  if containsKey l k then l.map (fun e => if e.1 = k then (k, v) else e)
  else l ++ [(k, v)]

/-- Association-list model of `HashMap::remove`: drop every entry at the key. -/
def removeTask (l : List (Nat × Task)) (k : Nat) : List (Nat × Task) :=
  l.filter (fun e => !(e.1 == k))

/-- Update the value stored at `k` in place (model of mutation through
`HashMap::get_mut`). -/
def updateEntry (l : List (Nat × Task)) (k : Nat) (f : Task → Task) : List (Nat × Task) :=
  l.map (fun e => if e.1 = k then (e.1, f e.2) else e)

/-- The stored tasks, i.e. `HashMap::values`. -/
def valuesOf (l : List (Nat × Task)) : List Task :=
  l.map Prod.snd

/-- Rust `struct TaskManager`. -/
structure TaskManager where
  tasks : List (Nat × Task)
  next_id : Nat
  deriving DecidableEq, Repr

namespace TaskManager

/-- Rust `TaskManager::new`. -/
def new : TaskManager :=
  { tasks := [], next_id := 1 }

/-- Rust `TaskManager::add_task`: reject a duplicate title (case-sensitive
equality against every stored task's title), otherwise store a fresh
`Pending` task under `next_id`, bump the counter and return the id.
The returned pair is (result, updated store). -/
def add_task (m : TaskManager) (title description : String) (priority : Priority) :
    Except TaskError Nat × TaskManager :=
  if m.tasks.any (fun e => e.2.title == title) then
    (Except.error TaskError.DuplicateTask, m)
  else
    let task := Task.new m.next_id title description priority
    let id := m.next_id
    (Except.ok id,
      { tasks := insertTask m.tasks id task, next_id := m.next_id + 1 })

/-- Rust `TaskManager::get_task`. -/
def get_task (m : TaskManager) (id : Nat) : Except TaskError Task :=
  match lookupTask m.tasks id with
  | some t => Except.ok t
  | none => Except.error TaskError.TaskNotFound

/-- Rust `TaskManager::update_task_status` (via `get_task_mut`). -/
def update_task_status (m : TaskManager) (id : Nat) (status : TaskStatus) :
    Except TaskError Unit × TaskManager :=
  if containsKey m.tasks id then
    (Except.ok (), { m with tasks := updateEntry m.tasks id (fun t => t.update_status status) })
  else
    (Except.error TaskError.TaskNotFound, m)

/-- Rust `TaskManager::add_tag_to_task` (via `get_task_mut`). -/
def add_tag_to_task (m : TaskManager) (id : Nat) (tag : String) :
    Except TaskError Unit × TaskManager :=
  if containsKey m.tasks id then
    (Except.ok (), { m with tasks := updateEntry m.tasks id (fun t => t.add_tag tag) })
  else
    (Except.error TaskError.TaskNotFound, m)

/-- Rust `TaskManager::delete_task`. -/
def delete_task (m : TaskManager) (id : Nat) : Except TaskError Unit × TaskManager :=
  if containsKey m.tasks id then
    (Except.ok (), { m with tasks := removeTask m.tasks id })
  else
    (Except.error TaskError.TaskNotFound, m)

/-- Rust `TaskManager::list_tasks`: all stored tasks sorted ascending by id. -/
def list_tasks (m : TaskManager) : List Task :=
  List.insertionSort (fun a b => a.id ≤ b.id) (valuesOf m.tasks)

/-- Rust `TaskManager::filter_tasks`. -/
def filter_tasks (m : TaskManager) (filter : String) : List Task :=
  (valuesOf m.tasks).filter (fun t => t.matches_filter filter)

/-- Rust `TaskManager::get_tasks_by_priority`. -/
def get_tasks_by_priority (m : TaskManager) (priority : Priority) : List Task :=
  (valuesOf m.tasks).filter (fun t => t.priority == priority)

/-- Rust `TaskManager::get_tasks_by_status`. -/
def get_tasks_by_status (m : TaskManager) (status : TaskStatus) : List Task :=
  (valuesOf m.tasks).filter (fun t => t.status == status)

/-- Rust `TaskManager::get_statistics`:
`(total, completed, in_progress, pending)`. -/
def get_statistics (m : TaskManager) : Nat × Nat × Nat × Nat :=
  let total := m.tasks.length
  let completed := (valuesOf m.tasks).countP (fun t => t.status == TaskStatus.Completed)
  let in_progress := (valuesOf m.tasks).countP (fun t => t.status == TaskStatus.InProgress)
  let pending := (valuesOf m.tasks).countP (fun t => t.status == TaskStatus.Pending)
  (total, completed, in_progress, pending)

end TaskManager

/-- One mutating store operation, for stating reachability of store states. -/
inductive Op where
  | add (title description : String) (priority : Priority)
  | updateStatus (id : Nat) (status : TaskStatus)
  | addTag (id : Nat) (tag : String)
  | delete (id : Nat)
  deriving DecidableEq, Repr

/-- Apply one operation, keeping only the store state. -/
def applyOp (m : TaskManager) : Op → TaskManager
  | Op.add t d p => (m.add_task t d p).2
  | Op.updateStatus id s => (m.update_task_status id s).2
  | Op.addTag id tg => (m.add_tag_to_task id tg).2
  | Op.delete id => (m.delete_task id).2

/-- Run a sequence of operations. -/
def runOps (m : TaskManager) (ops : List Op) : TaskManager :=
  ops.foldl applyOp m

/-- A store state reachable from a fresh store by some operation sequence. -/
def Reachable (m : TaskManager) : Prop :=
  ∃ ops : List Op, runOps TaskManager.new ops = m

/-- Run a sequence of `add` calls, collecting each call's result. -/
def runAdds : TaskManager → List (String × String × Priority) →
    List (Except TaskError Nat) × TaskManager
  | m, [] => ([], m)
  | m, (t, d, p) :: rest =>
    let r := m.add_task t d p
    let rr := runAdds r.2 rest
    (r.1 :: rr.1, rr.2)

/-! ### Small facts about `Task` field updates -/

@[simp] theorem Task.id_update_status (t : Task) (s : TaskStatus) :
    (t.update_status s).id = t.id := rfl

@[simp] theorem Task.status_update_status (t : Task) (s : TaskStatus) :
    (t.update_status s).status = s := rfl

@[simp] theorem Task.id_add_tag (t : Task) (tag : String) :
    (t.add_tag tag).id = t.id := by
  unfold Task.add_tag; split <;> rfl

/-! ### Association-map lemmas -/

@[simp] theorem lookupTask_nil (k : Nat) : lookupTask [] k = none := rfl

@[simp] theorem lookupTask_cons (e : Nat × Task) (l : List (Nat × Task)) (k : Nat) :
    lookupTask (e :: l) k = if e.1 = k then some e.2 else lookupTask l k := rfl

@[simp] theorem containsKey_nil (k : Nat) : containsKey [] k = false := rfl

@[simp] theorem containsKey_cons (e : Nat × Task) (l : List (Nat × Task)) (k : Nat) :
    containsKey (e :: l) k = (e.1 == k || containsKey l k) := by
  simp [containsKey]

theorem containsKey_iff_mem (l : List (Nat × Task)) (k : Nat) :
    containsKey l k = true ↔ k ∈ l.map Prod.fst := by
  induction l with
  | nil => simp
  | cons e l ih =>
    simp only [containsKey_cons, Bool.or_eq_true, beq_iff_eq, List.map_cons, List.mem_cons, ih]
    exact or_congr eq_comm Iff.rfl

theorem lookupTask_eq_none_iff (l : List (Nat × Task)) (k : Nat) :
    lookupTask l k = none ↔ containsKey l k = false := by
  induction l with
  | nil => simp
  | cons e l ih => by_cases h : e.1 = k <;> simp [h, ih]

theorem insertTask_of_not_contains (l : List (Nat × Task)) (k : Nat) (v : Task)
    (h : containsKey l k = false) : insertTask l k v = l ++ [(k, v)] := by
  simp [insertTask, h]

theorem lookupTask_append_right (l : List (Nat × Task)) (k : Nat) (v : Task)
    (h : containsKey l k = false) : lookupTask (l ++ [(k, v)]) k = some v := by
  induction l with
  | nil => simp
  | cons e l ih =>
    simp only [containsKey_cons, Bool.or_eq_false_iff] at h
    have he : e.1 ≠ k := by simpa using h.1
    simp [he, ih h.2]

theorem lookupTask_insertTask_self (l : List (Nat × Task)) (k : Nat) (v : Task) :
    lookupTask (insertTask l k v) k = some v := by
  unfold insertTask
  by_cases h : containsKey l k
  · simp only [h, if_true]
    induction l with
    | nil => simp at h
    | cons e l ih =>
      by_cases he : e.1 = k
      · simp [he]
      · have h2 : containsKey l k = true := by simpa [he] using h
        simp [he, ih h2]
  · simp only [h, if_false]
    exact lookupTask_append_right l k v (by simpa using h)

theorem mem_insertTask (l : List (Nat × Task)) (k : Nat) (v : Task) (e : Nat × Task)
    (h : e ∈ insertTask l k v) : e ∈ l ∨ e = (k, v) := by
  unfold insertTask at h
  by_cases hc : containsKey l k
  · simp only [hc, if_true, List.mem_map] at h
    obtain ⟨a, ha, rfl⟩ := h
    by_cases hk : a.1 = k
    · simp [hk]
    · simp [hk, ha]
  · simp only [hc, if_false] at h
    simpa using (List.mem_append.mp h)

@[simp] theorem map_fst_updateEntry (l : List (Nat × Task)) (k : Nat) (f : Task → Task) :
    (updateEntry l k f).map Prod.fst = l.map Prod.fst := by
  induction l with
  | nil => rfl
  | cons e l ih =>
    simp only [updateEntry, List.map_cons] at ih ⊢
    by_cases he : e.1 = k <;> simp [he, ih]

theorem containsKey_updateEntry (l : List (Nat × Task)) (k : Nat) (f : Task → Task)
    (k' : Nat) : containsKey (updateEntry l k f) k' = containsKey l k' := by
  by_cases h : containsKey l k'
  · rw [h, (containsKey_iff_mem _ _).mpr]
    rw [map_fst_updateEntry]
    exact (containsKey_iff_mem _ _).mp h
  · have h' : containsKey l k' = false := by simpa using h
    rw [h']
    rw [Bool.eq_false_iff]
    intro hc
    have := (containsKey_iff_mem _ _).mp hc
    rw [map_fst_updateEntry] at this
    exact (by simpa [h'] using (containsKey_iff_mem l k').mpr this)

theorem lookupTask_updateEntry_self (l : List (Nat × Task)) (k : Nat) (f : Task → Task) :
    lookupTask (updateEntry l k f) k = (lookupTask l k).map f := by
  induction l with
  | nil => rfl
  | cons e l ih =>
    simp only [updateEntry, List.map_cons] at ih ⊢
    by_cases he : e.1 = k <;> simp [he, ih]

theorem lookupTask_updateEntry_ne (l : List (Nat × Task)) (k : Nat) (f : Task → Task)
    (k' : Nat) (h : k' ≠ k) :
    lookupTask (updateEntry l k f) k' = lookupTask l k' := by
  induction l with
  | nil => rfl
  | cons e l ih =>
    simp only [updateEntry, List.map_cons] at ih ⊢
    by_cases he : e.1 = k
    · have hkk : k ≠ k' := fun hk => h hk.symm
      simp [he, hkk, ih]
    · by_cases he' : e.1 = k'
      · simp [he, he', h, ih]
      · simp [he, he', ih]

theorem mem_removeTask (l : List (Nat × Task)) (k : Nat) (e : Nat × Task)
    (h : e ∈ removeTask l k) : e ∈ l :=
  List.mem_of_mem_filter h

theorem containsKey_removeTask_self (l : List (Nat × Task)) (k : Nat) :
    containsKey (removeTask l k) k = false := by
  rw [Bool.eq_false_iff]
  intro hc
  rw [containsKey_iff_mem, List.mem_map] at hc
  obtain ⟨e, he, hk⟩ := hc
  have hp := List.of_mem_filter he
  simp [hk] at hp

theorem containsKey_removeTask (l : List (Nat × Task)) (k k' : Nat)
    (h : containsKey l k' = false) : containsKey (removeTask l k) k' = false := by
  rw [Bool.eq_false_iff]
  intro hc
  rw [containsKey_iff_mem, List.mem_map] at hc
  obtain ⟨e, he, hk⟩ := hc
  have : containsKey l k' = true := by
    rw [containsKey_iff_mem, List.mem_map]
    exact ⟨e, mem_removeTask l k e he, hk⟩
  simp [h] at this

/-! ### The store invariant maintained by every operation -/

/-- Well-formedness of a store state: every entry's stored task carries its
own key as `id`, every key is below the `next_id` counter, and keys are
pairwise distinct. Fresh stores satisfy it and every operation preserves it. -/
def GoodState (m : TaskManager) : Prop :=
  (∀ e ∈ m.tasks, e.2.id = e.1 ∧ e.1 < m.next_id) ∧ (m.tasks.map Prod.fst).Nodup

theorem goodState_new : GoodState TaskManager.new := by
  constructor <;> simp [TaskManager.new]

theorem not_containsKey_next_id (m : TaskManager) (h : GoodState m) :
    containsKey m.tasks m.next_id = false := by
  rw [Bool.eq_false_iff]
  intro hc
  rw [containsKey_iff_mem, List.mem_map] at hc
  obtain ⟨e, he, hk⟩ := hc
  have := (h.1 e he).2
  omega

theorem goodState_add (m : TaskManager) (t d : String) (p : Priority)
    (h : GoodState m) : GoodState (m.add_task t d p).2 := by
  unfold TaskManager.add_task
  by_cases hdup : m.tasks.any (fun e => e.2.title == t)
  · simpa [hdup] using h
  · have hni := not_containsKey_next_id m h
    simp only [hdup, Bool.false_eq_true, if_false]
    constructor
    · intro e he
      rw [insertTask_of_not_contains _ _ _ hni, List.mem_append] at he
      rcases he with he | he
      · have := h.1 e he
        exact ⟨this.1, Nat.lt_succ_of_lt this.2⟩
      · simp only [List.mem_singleton] at he
        subst he
        exact ⟨rfl, Nat.lt_succ_self _⟩
    · rw [insertTask_of_not_contains _ _ _ hni]
      simp only [List.map_append, List.map_cons, List.map_nil]
      rw [List.nodup_append]
      refine ⟨h.2, List.nodup_singleton _, ?_⟩
      intro a ha hb
      simp only [List.mem_singleton] at hb
      subst hb
      rw [List.mem_map] at ha
      obtain ⟨e, he, hk⟩ := ha
      have := (h.1 e he).2
      omega

theorem goodState_updateEntry (m : TaskManager) (id : Nat) (f : Task → Task)
    (hf : ∀ t : Task, (f t).id = t.id) (h : GoodState m) :
    GoodState { m with tasks := updateEntry m.tasks id f } := by
  constructor
  · intro e he
    simp only [updateEntry, List.mem_map] at he
    obtain ⟨a, ha, rfl⟩ := he
    have := h.1 a ha
    by_cases hk : a.1 = id
    · subst hk
      simp [hf, this]
    · simp [hk, this]
  · simpa using h.2

theorem goodState_applyOp (m : TaskManager) (op : Op) (h : GoodState m) :
    GoodState (applyOp m op) := by
  cases op with
  | add t d p => exact goodState_add m t d p h
  | updateStatus id s =>
    simp only [applyOp, TaskManager.update_task_status]
    split
    · exact goodState_updateEntry m id _ (fun t => rfl) h
    · exact h
  | addTag id tg =>
    simp only [applyOp, TaskManager.add_tag_to_task]
    split
    · exact goodState_updateEntry m id _ (fun t => Task.id_add_tag t tg) h
    · exact h
  | delete id =>
    simp only [applyOp, TaskManager.delete_task]
    split
    · constructor
      · intro e he
        exact h.1 e (mem_removeTask _ _ _ he)
      · exact (h.2.sublist (List.Sublist.map Prod.fst (List.filter_sublist _)))
    · exact h

theorem goodState_runOps (m : TaskManager) (ops : List Op) (h : GoodState m) :
    GoodState (runOps m ops) := by
  induction ops generalizing m with
  | nil => exact h
  | cons op ops ih => exact ih (applyOp m op) (goodState_applyOp m op h)

theorem reachable_goodState (m : TaskManager) (h : Reachable m) : GoodState m := by
  obtain ⟨ops, rfl⟩ := h
  exact goodState_runOps TaskManager.new ops goodState_new

theorem next_id_le_applyOp (m : TaskManager) (op : Op) :
    m.next_id ≤ (applyOp m op).next_id := by
  cases op with
  | add t d p =>
    simp only [applyOp, TaskManager.add_task]
    split <;> simp
  | updateStatus id s =>
    simp only [applyOp, TaskManager.update_task_status]
    split <;> simp
  | addTag id tg =>
    simp only [applyOp, TaskManager.add_tag_to_task]
    split <;> simp
  | delete id =>
    simp only [applyOp, TaskManager.delete_task]
    split <;> simp

/-- The key fact behind id non-reuse: once an id is below the counter and
absent from the map, it stays that way under every operation. -/
def AbsentFrom (id : Nat) (m : TaskManager) : Prop :=
  GoodState m ∧ id < m.next_id ∧ containsKey m.tasks id = false

theorem absentFrom_applyOp (id : Nat) (m : TaskManager) (op : Op)
    (h : AbsentFrom id m) : AbsentFrom id (applyOp m op) := by
  obtain ⟨hg, hlt, habs⟩ := h
  refine ⟨goodState_applyOp m op hg, lt_of_lt_of_le hlt (next_id_le_applyOp m op), ?_⟩
  cases op with
  | add t d p =>
    simp only [applyOp, TaskManager.add_task]
    by_cases hdup : m.tasks.any (fun e => e.2.title == t)
    · simpa [hdup] using habs
    · have hni := not_containsKey_next_id m hg
      simp only [hdup, Bool.false_eq_true, if_false]
      rw [insertTask_of_not_contains _ _ _ hni]
      rw [Bool.eq_false_iff]
      intro hc
      rw [containsKey_iff_mem, List.map_append, List.mem_append] at hc
      rcases hc with hc | hc
      · exact absurd ((containsKey_iff_mem _ _).mpr hc) (by simp [habs])
      · simp only [List.map_cons, List.map_nil, List.mem_singleton] at hc
        omega
  | updateStatus i s =>
    simp only [applyOp, TaskManager.update_task_status]
    split
    · simpa [containsKey_updateEntry] using habs
    · exact habs
  | addTag i tg =>
    simp only [applyOp, TaskManager.add_tag_to_task]
    split
    · simpa [containsKey_updateEntry] using habs
    · exact habs
  | delete i =>
    simp only [applyOp, TaskManager.delete_task]
    split
    · exact containsKey_removeTask _ _ _ habs
    · exact habs

theorem absentFrom_runOps (id : Nat) (m : TaskManager) (ops : List Op)
    (h : AbsentFrom id m) : AbsentFrom id (runOps m ops) := by
  induction ops generalizing m with
  | nil => exact h
  | cons op ops ih => exact ih (applyOp m op) (absentFrom_applyOp id m op h)

/-! ### Characterization of `add_task` -/

theorem any_title_iff (m : TaskManager) (t : String) :
    (m.tasks.any fun e => e.2.title == t) = true ↔ ∃ e ∈ m.tasks, e.2.title = t := by
  simp [List.any_eq_true]

theorem add_task_of_dup (m : TaskManager) (t d : String) (p : Priority)
    (h : ∃ e ∈ m.tasks, e.2.title = t) :
    m.add_task t d p = (Except.error TaskError.DuplicateTask, m) := by
  unfold TaskManager.add_task
  rw [if_pos ((any_title_iff m t).mpr h)]

theorem add_task_of_not_dup (m : TaskManager) (t d : String) (p : Priority)
    (h : ¬ ∃ e ∈ m.tasks, e.2.title = t) :
    m.add_task t d p =
      (Except.ok m.next_id,
        { tasks := insertTask m.tasks m.next_id (Task.new m.next_id t d p),
          next_id := m.next_id + 1 }) := by
  unfold TaskManager.add_task
  rw [if_neg (fun hh => h ((any_title_iff m t).mp hh))]

/-- C2: `add` returns `DuplicateTask` exactly when some stored task's title
equals the given title (case-sensitive, other fields irrelevant); otherwise
it returns the freshly allocated id `next_id`, stores under that id a task
with the given title/description/priority, status `Pending` and empty tags,
and bumps the counter. -/
theorem add_task_spec (m : TaskManager) (t d : String) (p : Priority) :
    ((m.add_task t d p).1 = Except.error TaskError.DuplicateTask ↔
      ∃ e ∈ m.tasks, e.2.title = t) ∧
    ((¬ ∃ e ∈ m.tasks, e.2.title = t) →
      (m.add_task t d p).1 = Except.ok m.next_id ∧
      lookupTask (m.add_task t d p).2.tasks m.next_id =
        some { id := m.next_id, title := t, description := d, priority := p,
               status := TaskStatus.Pending, tags := [] } ∧
      (m.add_task t d p).2.next_id = m.next_id + 1) := by
  constructor
  · constructor
    · intro h1
      by_cases h : ∃ e ∈ m.tasks, e.2.title = t
      · exact h
      · rw [add_task_of_not_dup m t d p h] at h1
        exact absurd h1 (by simp)
    · intro h
      rw [add_task_of_dup m t d p h]
  · intro h
    rw [add_task_of_not_dup m t d p h]
    exact ⟨rfl, lookupTask_insertTask_self _ _ _, rfl⟩

/-- Closed instance of `add_task_spec`: on a fresh store, `add "a"` has no
duplicate, returns id 1 and stores the expected `Pending` task. -/
theorem add_task_spec_witness :
    (¬ ∃ e ∈ TaskManager.new.tasks, e.2.title = "a") ∧
    ((TaskManager.new.add_task "a" "d" Priority.Low).1 = Except.ok 1 ∧
      lookupTask (TaskManager.new.add_task "a" "d" Priority.Low).2.tasks 1 =
        some { id := 1, title := "a", description := "d", priority := Priority.Low,
               status := TaskStatus.Pending, tags := [] } ∧
      (TaskManager.new.add_task "a" "d" Priority.Low).2.next_id = 2) :=
  ⟨by simp [TaskManager.new],
    (add_task_spec TaskManager.new "a" "d" Priority.Low).2 (by simp [TaskManager.new])⟩

/-- C10: a failed `add` (duplicate title) leaves the store completely
unchanged, in particular the `next_id` counter is not incremented. -/
theorem add_task_atomic_on_failure (m : TaskManager) (t d : String) (p : Priority)
    (h : (m.add_task t d p).1 = Except.error TaskError.DuplicateTask) :
    (m.add_task t d p).2 = m := by
  by_cases hdup : ∃ e ∈ m.tasks, e.2.title = t
  · rw [add_task_of_dup m t d p hdup]
  · rw [add_task_of_not_dup m t d p hdup] at h
    exact absurd h (by simp)

/-- Closed instance of `add_task_atomic_on_failure`: re-adding title `"a"`
fails and leaves the one-task store untouched. -/
theorem add_task_atomic_on_failure_witness :
    ((TaskManager.new.add_task "a" "d" Priority.Low).2.add_task "a" "x" Priority.High).1 =
      Except.error TaskError.DuplicateTask ∧
    ((TaskManager.new.add_task "a" "d" Priority.Low).2.add_task "a" "x" Priority.High).2 =
      (TaskManager.new.add_task "a" "d" Priority.Low).2 :=
  ⟨rfl,
    add_task_atomic_on_failure (TaskManager.new.add_task "a" "d" Priority.Low).2
      "a" "x" Priority.High rfl⟩

/-! ### Statistics -/

theorem countP_status_partition (l : List Task) :
    l.countP (fun t => t.status == TaskStatus.Completed) +
    l.countP (fun t => t.status == TaskStatus.InProgress) +
    l.countP (fun t => t.status == TaskStatus.Pending) = l.length := by
  induction l with
  | nil => rfl
  | cons t l ih =>
    cases hs : t.status <;> simp [List.countP_cons, hs] <;> omega

theorem statistics_partition_all (m : TaskManager) :
    m.get_statistics.2.1 + m.get_statistics.2.2.1 + m.get_statistics.2.2.2 =
      m.get_statistics.1 := by
  have h := countP_status_partition (valuesOf m.tasks)
  simpa [TaskManager.get_statistics, valuesOf] using h

/-- C4: after any sequence of store operations from a fresh store, the
statistics satisfy `completed + inProgress + pending = total`. -/
theorem statistics_partition (ops : List Op) :
    (runOps TaskManager.new ops).get_statistics.2.1 +
    (runOps TaskManager.new ops).get_statistics.2.2.1 +
    (runOps TaskManager.new ops).get_statistics.2.2.2 =
    (runOps TaskManager.new ops).get_statistics.1 :=
  statistics_partition_all (runOps TaskManager.new ops)

/-! ### Empty titles are accepted -/

/-- C9 counterexample: one `add` with an empty title, starting from a fresh
store, stores a task whose title is the empty string. -/
theorem empty_title_stored :
    (runOps TaskManager.new [Op.add "" "d" Priority.Low]).tasks =
      [(1, { id := 1, title := "", description := "d", priority := Priority.Low,
             status := TaskStatus.Pending, tags := [] })] ∧
    ({ id := 1, title := "", description := "d", priority := Priority.Low,
       status := TaskStatus.Pending, tags := [] } : Task).title = "" := by
  constructor
  · decide
  · rfl

/-- C9 amended: the store imposes no emptiness validation on titles. An
`add` with the empty title succeeds whenever no stored task already has the
empty title, storing a task whose title is the empty string. -/
theorem add_empty_title_ok (m : TaskManager) (d : String) (p : Priority)
    (h : ¬ ∃ e ∈ m.tasks, e.2.title = "") :
    (m.add_task "" d p).1 = Except.ok m.next_id ∧
    lookupTask (m.add_task "" d p).2.tasks m.next_id =
      some { id := m.next_id, title := "", description := d, priority := p,
             status := TaskStatus.Pending, tags := [] } := by
  rw [add_task_of_not_dup m "" d p h]
  exact ⟨rfl, lookupTask_insertTask_self _ _ _⟩

/-- Closed instance of `add_empty_title_ok` on the fresh store. -/
theorem add_empty_title_ok_witness :
    (¬ ∃ e ∈ TaskManager.new.tasks, e.2.title = "") ∧
    ((TaskManager.new.add_task "" "d" Priority.Low).1 = Except.ok 1 ∧
      lookupTask (TaskManager.new.add_task "" "d" Priority.Low).2.tasks 1 =
        some { id := 1, title := "", description := "d", priority := Priority.Low,
               status := TaskStatus.Pending, tags := [] }) :=
  ⟨by simp [TaskManager.new],
    add_empty_title_ok TaskManager.new "d" Priority.Low (by simp [TaskManager.new])⟩

/-! ### Status update -/

/-- C8: on a present id, `updateStatus` succeeds, sets exactly the status
(any target status, including the current one), and changes nothing else:
the task's other fields, every other stored task, and the `next_id` counter
are untouched; on an absent id it returns `TaskNotFound` and leaves the
store unchanged. -/
theorem update_task_status_spec (m : TaskManager) (id : Nat) (s : TaskStatus) :
    (containsKey m.tasks id = true →
      (m.update_task_status id s).1 = Except.ok () ∧
      (m.update_task_status id s).2.next_id = m.next_id ∧
      (∀ t, lookupTask m.tasks id = some t →
        lookupTask (m.update_task_status id s).2.tasks id = some { t with status := s }) ∧
      (∀ k, k ≠ id → lookupTask (m.update_task_status id s).2.tasks k = lookupTask m.tasks k)) ∧
    (containsKey m.tasks id = false →
      m.update_task_status id s = (Except.error TaskError.TaskNotFound, m)) := by
  constructor
  · intro hc
    have heq : m.update_task_status id s =
        (Except.ok (), { m with tasks := updateEntry m.tasks id (fun t => t.update_status s) }) := by
      unfold TaskManager.update_task_status
      rw [if_pos hc]
    rw [heq]
    refine ⟨rfl, rfl, ?_, ?_⟩
    · intro t ht
      show lookupTask (updateEntry m.tasks id (fun t => t.update_status s)) id = _
      rw [lookupTask_updateEntry_self, ht]
      rfl
    · intro k hk
      show lookupTask (updateEntry m.tasks id (fun t => t.update_status s)) k = lookupTask m.tasks k
      exact lookupTask_updateEntry_ne _ _ _ _ hk
  · intro hc
    simp [TaskManager.update_task_status, hc]

/-- Closed instance of `update_task_status_spec`: completing task 1 in a
one-task store. -/
theorem update_task_status_spec_witness :
    containsKey (TaskManager.new.add_task "a" "d" Priority.Low).2.tasks 1 = true ∧
    (((TaskManager.new.add_task "a" "d" Priority.Low).2.update_task_status 1
        TaskStatus.Completed).1 = Except.ok () ∧
      ((TaskManager.new.add_task "a" "d" Priority.Low).2.update_task_status 1
        TaskStatus.Completed).2.next_id = 2 ∧
      lookupTask ((TaskManager.new.add_task "a" "d" Priority.Low).2.update_task_status 1
        TaskStatus.Completed).2.tasks 1 =
        some { id := 1, title := "a", description := "d", priority := Priority.Low,
               status := TaskStatus.Completed, tags := [] }) := by
  have h := (update_task_status_spec (TaskManager.new.add_task "a" "d" Priority.Low).2 1
    TaskStatus.Completed).1 rfl
  exact ⟨rfl, h.1, h.2.1,
    h.2.2.1 { id := 1, title := "a", description := "d", priority := Priority.Low,
              status := TaskStatus.Pending, tags := [] } rfl⟩

/-! ### Tag addition -/

theorem Task.add_tag_twice (t : Task) (tag : String) :
    (t.add_tag tag).add_tag tag = t.add_tag tag := by
  by_cases hc : t.tags.contains tag
  · have h1 : t.add_tag tag = t := by
      unfold Task.add_tag
      rw [if_pos hc]
    rw [h1, h1]
  · have h1 : t.add_tag tag = { t with tags := t.tags ++ [tag] } := by
      unfold Task.add_tag
      rw [if_neg hc]
    have h2 : ({ t with tags := t.tags ++ [tag] } : Task).tags.contains tag = true := by
      simp
    rw [h1]
    show Task.add_tag _ tag = _
    unfold Task.add_tag
    rw [if_pos h2]

theorem updateEntry_updateEntry (l : List (Nat × Task)) (k : Nat) (f g : Task → Task) :
    updateEntry (updateEntry l k f) k g = updateEntry l k (fun t => g (f t)) := by
  induction l with
  | nil => rfl
  | cons e l ih =>
    simp only [updateEntry, List.map_cons] at ih ⊢
    by_cases he : e.1 = k <;> simp [he, ih]

/-- C6: on a present id, `addTag` succeeds, and a second identical `addTag`
succeeds as a silent no-op: the resulting store (hence the task's tag
sequence, its length and its order) is exactly the one after the first
call. -/
theorem add_tag_idempotent (m : TaskManager) (id : Nat) (tag : String)
    (h : containsKey m.tasks id = true) :
    (m.add_tag_to_task id tag).1 = Except.ok () ∧
    (m.add_tag_to_task id tag).2.add_tag_to_task id tag =
      (Except.ok (), (m.add_tag_to_task id tag).2) := by
  have hc2 : containsKey (updateEntry m.tasks id (fun t => t.add_tag tag)) id = true := by
    rw [containsKey_updateEntry]; exact h
  constructor
  · simp [TaskManager.add_tag_to_task, h]
  · simp only [TaskManager.add_tag_to_task, h, if_true, hc2]
    rw [updateEntry_updateEntry]
    have hfun : (fun t : Task => (t.add_tag tag).add_tag tag) = fun t : Task => t.add_tag tag :=
      funext fun t => Task.add_tag_twice t tag
    rw [hfun]

/-- Closed instance of `add_tag_idempotent`: tagging task 1 twice with
`"x"` equals tagging it once. -/
theorem add_tag_idempotent_witness :
    containsKey (TaskManager.new.add_task "a" "d" Priority.Low).2.tasks 1 = true ∧
    (((TaskManager.new.add_task "a" "d" Priority.Low).2.add_tag_to_task 1 "x").1 =
      Except.ok () ∧
    ((TaskManager.new.add_task "a" "d" Priority.Low).2.add_tag_to_task 1 "x").2.add_tag_to_task
        1 "x" =
      (Except.ok (), ((TaskManager.new.add_task "a" "d" Priority.Low).2.add_tag_to_task
        1 "x").2)) :=
  ⟨rfl, add_tag_idempotent (TaskManager.new.add_task "a" "d" Priority.Low).2 1 "x" rfl⟩

/-! ### Sequences of adds -/

theorem runAdds_fresh (l : List (String × String × Priority)) (m : TaskManager)
    (hfresh : ∀ x ∈ l, ∀ e ∈ m.tasks, e.2.title ≠ x.1)
    (hnodup : (l.map (fun x => x.1)).Nodup) :
    (runAdds m l).1 =
      (List.range l.length).map (fun i => Except.ok (m.next_id + i)) := by
  induction l generalizing m with
  | nil => rfl
  | cons x l ih =>
    obtain ⟨t, d, p⟩ := x
    have hnd : ¬ ∃ e ∈ m.tasks, e.2.title = t := by
      rintro ⟨e, he, het⟩
      exact hfresh (t, d, p) (List.mem_cons_self _ _) e he het
    have hadd := add_task_of_not_dup m t d p hnd
    simp only [List.map_cons] at hnodup
    have hnodup' := (List.nodup_cons.mp hnodup).2
    have hnotmem := (List.nodup_cons.mp hnodup).1
    have hfresh' : ∀ x ∈ l,
        ∀ e ∈ insertTask m.tasks m.next_id (Task.new m.next_id t d p), e.2.title ≠ x.1 := by
      intro x hx e he
      rcases mem_insertTask _ _ _ _ he with hel | heq
      · exact hfresh x (List.mem_cons_of_mem _ hx) e hel
      · rw [heq]
        intro hh
        have hh' : t = x.1 := hh
        exact hnotmem (hh' ▸ List.mem_map_of_mem (fun x => x.1) hx)
    have ihres := ih { tasks := insertTask m.tasks m.next_id (Task.new m.next_id t d p),
                       next_id := m.next_id + 1 } hfresh' hnodup'
    have hstep : (runAdds m ((t, d, p) :: l)).1 =
        Except.ok m.next_id ::
          (runAdds { tasks := insertTask m.tasks m.next_id (Task.new m.next_id t d p),
                     next_id := m.next_id + 1 } l).1 := by
      show (m.add_task t d p).1 :: (runAdds (m.add_task t d p).2 l).1 = _
      rw [hadd]
    rw [hstep, ihres]
    show Except.ok m.next_id ::
        (List.range l.length).map (fun i => Except.ok (m.next_id + 1 + i)) =
      (List.range (l.length + 1)).map (fun i => Except.ok (m.next_id + i))
    rw [List.range_succ_eq_map, List.map_cons, List.map_map]
    congr 1
    simp
    intro a _
    omega

/-- C1: starting from a fresh store, a sequence of `add` calls with
pairwise-distinct titles all succeed and the i-th call (0-based) returns
id `i + 1`: ids are strictly increasing starting at 1. -/
theorem add_ids_strictly_increasing (l : List (String × String × Priority))
    (h : (l.map (fun x => x.1)).Nodup) :
    (runAdds TaskManager.new l).1 =
      (List.range l.length).map (fun i => Except.ok (i + 1)) := by
  have hres := runAdds_fresh l TaskManager.new
    (by intro x hx e he; simp [TaskManager.new] at he) h
  rw [hres]
  have hfg : (fun i => (Except.ok (TaskManager.new.next_id + i) : Except TaskError Nat)) =
      (fun i => Except.ok (i + 1)) := by
    funext i
    show Except.ok (1 + i) = Except.ok (i + 1)
    congr 1
    omega
  rw [hfg]

/-- Closed instance of `add_ids_strictly_increasing`: two adds with
distinct titles return ids 1 and 2. -/
theorem add_ids_strictly_increasing_witness :
    (([("a", "da", Priority.Low), ("b", "db", Priority.High)].map (fun x => x.1)).Nodup) ∧
    (runAdds TaskManager.new [("a", "da", Priority.Low), ("b", "db", Priority.High)]).1 =
      [Except.ok 1, Except.ok 2] := by
  constructor
  · decide
  · rw [add_ids_strictly_increasing _ (by decide)]
    rfl

/-! ### Deleted ids are never reused -/

/-- C3: from any reachable store, once `delete(id)` succeeds, every later
`get(id)` (after any further operation sequence) returns `TaskNotFound` —
nothing ever re-introduces the id — and no later `add` ever returns that
id. -/
theorem delete_id_never_reused (m : TaskManager) (id : Nat) (m' : TaskManager)
    (hr : Reachable m) (hdel : m.delete_task id = (Except.ok (), m')) :
    ∀ ops : List Op,
      (runOps m' ops).get_task id = Except.error TaskError.TaskNotFound ∧
      ∀ t d p, ((runOps m' ops).add_task t d p).1 ≠ Except.ok id := by
  have hg := reachable_goodState m hr
  have hc : containsKey m.tasks id = true := by
    by_cases h : containsKey m.tasks id = true
    · exact h
    · unfold TaskManager.delete_task at hdel
      rw [if_neg h] at hdel
      simp at hdel
  have hm' : m' = { m with tasks := removeTask m.tasks id } := by
    unfold TaskManager.delete_task at hdel
    rw [if_pos hc] at hdel
    exact (congrArg Prod.snd hdel).symm
  have hlt : id < m.next_id := by
    have hmem := (containsKey_iff_mem _ _).mp hc
    rw [List.mem_map] at hmem
    obtain ⟨e, he, hk⟩ := hmem
    have h2 := (hg.1 e he).2
    omega
  have hgood' : GoodState m' := by
    rw [hm']
    exact ⟨fun e he => hg.1 e (mem_removeTask _ _ _ he),
      hg.2.sublist (List.Sublist.map Prod.fst (List.filter_sublist _))⟩
  have habs : AbsentFrom id m' := by
    refine ⟨hgood', ?_, ?_⟩
    · rw [hm']
      exact hlt
    · rw [hm']
      exact containsKey_removeTask_self _ _
  intro ops
  obtain ⟨hgops, hltops, habsops⟩ := absentFrom_runOps id m' ops habs
  constructor
  · have hnone := (lookupTask_eq_none_iff (runOps m' ops).tasks id).mpr habsops
    unfold TaskManager.get_task
    rw [hnone]
  · intro t d p hok
    by_cases hdup : ∃ e ∈ (runOps m' ops).tasks, e.2.title = t
    · rw [add_task_of_dup _ _ _ _ hdup] at hok
      simp at hok
    · rw [add_task_of_not_dup _ _ _ _ hdup] at hok
      have hg2 : (Except.ok (runOps m' ops).next_id : Except TaskError Nat) = Except.ok id := hok
      have := Except.ok.inj hg2
      omega

/-- Closed instance of `delete_id_never_reused`: delete task 1 from a
one-task reachable store, then run one more add; `get 1` fails and the add
does not return id 1. -/
theorem delete_id_never_reused_witness :
    ((runOps ((TaskManager.new.add_task "a" "d" Priority.Low).2.delete_task 1).2
        [Op.add "b" "x" Priority.High]).get_task 1 =
      Except.error TaskError.TaskNotFound) ∧
    (((runOps ((TaskManager.new.add_task "a" "d" Priority.Low).2.delete_task 1).2
        [Op.add "b" "x" Priority.High]).add_task "c" "y" Priority.Low).1 ≠
      Except.ok 1) := by
  have h := delete_id_never_reused (TaskManager.new.add_task "a" "d" Priority.Low).2 1
    ((TaskManager.new.add_task "a" "d" Priority.Low).2.delete_task 1).2
    ⟨[Op.add "a" "d" Priority.Low], rfl⟩ rfl [Op.add "b" "x" Priority.High]
  exact ⟨h.1, h.2 "c" "y" Priority.Low⟩

/-! ### Substring search agrees with the declarative substring relation -/

theorem needleIsAt_iff (needle hay : List Char) :
    needleIsAt needle hay = true ↔ ∃ t, hay = needle ++ t := by
  induction needle generalizing hay with
  | nil => simp [needleIsAt]
  | cons a as ih =>
    cases hay with
    | nil => simp [needleIsAt]
    | cons b bs =>
      rw [needleIsAt]
      simp only [Bool.and_eq_true, beq_iff_eq, ih, List.cons_append, List.cons.injEq]
      constructor
      · rintro ⟨rfl, t, rfl⟩
        exact ⟨t, rfl, rfl⟩
      · rintro ⟨t, rfl, rfl⟩
        exact ⟨rfl, t, rfl⟩

theorem hasSub_iff (hay needle : List Char) :
    hasSub hay needle = true ↔ ∃ s t, hay = s ++ needle ++ t := by
  induction hay with
  | nil =>
    rw [hasSub]
    constructor
    · intro h
      refine ⟨[], [], ?_⟩
      have hn : needle = [] := by simpa using h
      rw [hn]
      rfl
    · rintro ⟨s, t, hst⟩
      have h1 : s = [] ∧ needle ++ t = [] := by
        have h0 := hst.symm
        rw [List.append_assoc] at h0
        exact List.append_eq_nil.mp h0
      have h2 := List.append_eq_nil.mp h1.2
      simp [h2.1]
  | cons c rest ih =>
    rw [hasSub]
    simp only [Bool.or_eq_true, needleIsAt_iff, ih]
    constructor
    · rintro (⟨t, ht⟩ | ⟨s, t, ht⟩)
      · exact ⟨[], t, by simpa using ht⟩
      · exact ⟨c :: s, t, by simp [ht]⟩
    · rintro ⟨s, t, hst⟩
      cases s with
      | nil =>
        left
        exact ⟨t, by simpa using hst⟩
      | cons c' s' =>
        right
        rw [List.cons_append, List.cons_append] at hst
        injection hst with h1 h2
        exact ⟨s', t, h2⟩

/-- The spec's substring relation: `needle` occurs contiguously inside
`hay`. -/
def OccursIn (needle hay : List Char) : Prop :=
  ∃ s t : List Char, hay = s ++ needle ++ t

/-- Spec-side matching predicate, phrased from the spec's words: the
keyword occurs as a case-insensitive substring of the title, of the
description, or of at least one tag. -/
def MatchesKeyword (t : Task) (kw : String) : Prop :=
  OccursIn (lowerChars kw) (lowerChars t.title) ∨
  OccursIn (lowerChars kw) (lowerChars t.description) ∨
  ∃ tag ∈ t.tags, OccursIn (lowerChars kw) (lowerChars tag)

theorem matches_filter_iff (t : Task) (kw : String) :
    t.matches_filter kw = true ↔ MatchesKeyword t kw := by
  unfold Task.matches_filter MatchesKeyword OccursIn
  simp only [Bool.or_eq_true, List.any_eq_true, hasSub_iff]
  exact or_assoc

/-- C5: `filter(keyword)` returns exactly the stored tasks whose title,
description, or some tag contains the keyword as a case-insensitive
substring; when nothing matches the result is the empty list (no error —
the operation is total). -/
theorem filter_tasks_spec (m : TaskManager) (kw : String) :
    (∀ t : Task, t ∈ m.filter_tasks kw ↔ t ∈ valuesOf m.tasks ∧ MatchesKeyword t kw) ∧
    ((∀ t ∈ valuesOf m.tasks, ¬ MatchesKeyword t kw) → m.filter_tasks kw = []) := by
  constructor
  · intro t
    unfold TaskManager.filter_tasks
    rw [List.mem_filter, matches_filter_iff]
  · intro h
    unfold TaskManager.filter_tasks
    rw [List.filter_eq_nil_iff]
    intro a ha hm
    exact h a ha ((matches_filter_iff a kw).mp hm)

/-- Closed instance of `filter_tasks_spec` on the spec's two-task scenario
store: no task matches keyword `"zzz"` and the filter result is empty. -/
theorem filter_tasks_spec_witness :
    (∀ t ∈ valuesOf ((TaskManager.new.add_task "Buy groceries" "Milk and bread"
        Priority.Medium).2.add_task "Walk dog" "Morning walk" Priority.Low).2.tasks,
      ¬ MatchesKeyword t "zzz") ∧
    ((TaskManager.new.add_task "Buy groceries" "Milk and bread"
        Priority.Medium).2.add_task "Walk dog" "Morning walk" Priority.Low).2.filter_tasks
      "zzz" = [] := by
  have hnm : ∀ t ∈ valuesOf ((TaskManager.new.add_task "Buy groceries" "Milk and bread"
      Priority.Medium).2.add_task "Walk dog" "Morning walk" Priority.Low).2.tasks,
      ¬ MatchesKeyword t "zzz" := by
    intro t ht hm
    rw [← matches_filter_iff] at hm
    have hv : valuesOf ((TaskManager.new.add_task "Buy groceries" "Milk and bread"
        Priority.Medium).2.add_task "Walk dog" "Morning walk" Priority.Low).2.tasks =
        [⟨1, "Buy groceries", "Milk and bread", Priority.Medium, TaskStatus.Pending, []⟩,
         ⟨2, "Walk dog", "Morning walk", Priority.Low, TaskStatus.Pending, []⟩] := by
      decide
    rw [hv] at ht
    simp only [List.mem_cons, List.not_mem_nil, or_false] at ht
    rcases ht with rfl | rfl
    · exact absurd hm (by decide)
    · exact absurd hm (by decide)
  exact ⟨hnm, (filter_tasks_spec _ "zzz").2 hnm⟩

/-! ### Listing is a sorted permutation of the stored tasks -/

instance : IsTotal Task (fun a b => a.id ≤ b.id) :=
  ⟨fun a b => Nat.le_total a.id b.id⟩

instance : IsTrans Task (fun a b => a.id ≤ b.id) :=
  ⟨fun _ _ _ hab hbc => Nat.le_trans hab hbc⟩

theorem pairwise_lt_of_le_of_ne (l : List Task)
    (hle : l.Pairwise (fun a b => a.id ≤ b.id))
    (hne : l.Pairwise (fun a b => a.id ≠ b.id)) :
    l.Pairwise (fun a b => a.id < b.id) := by
  induction l with
  | nil => exact List.Pairwise.nil
  | cons a l ih =>
    rcases List.pairwise_cons.mp hle with ⟨h1, h2⟩
    rcases List.pairwise_cons.mp hne with ⟨h3, h4⟩
    exact List.pairwise_cons.mpr
      ⟨fun b hb => lt_of_le_of_ne (h1 b hb) (h3 b hb), ih h2 h4⟩

theorem map_id_eq_map_fst (l : List (Nat × Task)) (h : ∀ e ∈ l, e.2.id = e.1) :
    (valuesOf l).map Task.id = l.map Prod.fst := by
  induction l with
  | nil => rfl
  | cons e l ih =>
    show e.2.id :: (valuesOf l).map Task.id = e.1 :: l.map Prod.fst
    rw [ih (fun a ha => h a (List.mem_cons_of_mem _ ha)), h e (List.mem_cons_self _ _)]

/-- C7: on any reachable store, `list()` is a permutation of the stored
tasks (each stored task appears exactly once) and is strictly ascending by
id. Determinism across repeated calls is immediate: `list_tasks` is a pure
function of the store state. -/
theorem list_tasks_spec (ops : List Op) :
    ((runOps TaskManager.new ops).list_tasks).Perm
      (valuesOf (runOps TaskManager.new ops).tasks) ∧
    ((runOps TaskManager.new ops).list_tasks).Pairwise (fun a b => a.id < b.id) := by
  have hg := goodState_runOps TaskManager.new ops goodState_new
  have hperm : ((runOps TaskManager.new ops).list_tasks).Perm
      (valuesOf (runOps TaskManager.new ops).tasks) :=
    List.perm_insertionSort _ _
  refine ⟨hperm, ?_⟩
  have hsorted : ((runOps TaskManager.new ops).list_tasks).Pairwise
      (fun a b => a.id ≤ b.id) :=
    List.sorted_insertionSort _ _
  have hids : ((valuesOf (runOps TaskManager.new ops).tasks).map Task.id).Nodup := by
    rw [map_id_eq_map_fst _ (fun e he => (hg.1 e he).1)]
    exact hg.2
  have hids2 : (((runOps TaskManager.new ops).list_tasks).map Task.id).Nodup :=
    ((hperm.map Task.id).nodup_iff).mpr hids
  have hne : ((runOps TaskManager.new ops).list_tasks).Pairwise
      (fun a b => a.id ≠ b.id) :=
    List.pairwise_map.mp hids2
  exact pairwise_lt_of_le_of_ne _ hsorted hne

end TaskManagerRust
